import Mathlib

/-!
Verification development for the `local-rag` code-search engine
(Go implementation in `main.go`).

Shallow embedding conventions:
* Go strings (byte slices) are modelled as `List Char`; byte lengths are
  modelled as character counts (exact for ASCII content).
* Go `int` values that are nonnegative in every reachable execution
  (line numbers, sizes, the `--max-chunk-size` / `--chunk-overlap` flags)
  are modelled as `Nat`.
* `float64` scores are modelled as `ℚ`.
* External collaborators (the Neo4j store, the GDS cosine procedure, the
  embedding HTTP service) are modelled at their interfaces: the store as an
  association list, cosine similarity as a function parameter, HTTP
  responses as explicit `Except` values.
-/

namespace LocalRag

/-- Characters `\x7b` and `\x7d` (curly braces), used by the Go-function
regular expressions and by `regexp.QuoteMeta`. -/
def braceOpen : Char := Char.ofNat 123

/-- Closing curly brace character. -/
def braceClose : Char := Char.ofNat 125

/-- The characters of a string literal, as the `List Char` representation
used throughout this development. -/
def strL (s : String) : List Char := s.data

/-- Model of Go `strings.Split(s, sep)` for a one-character separator.
`strings.Split` of the empty string is `[""]`, and in general it returns
one (possibly empty) piece more than the number of separators. -/
def goSplit (sep : Char) : List Char → List (List Char)
  | [] => [[]]
  | c :: cs =>
    if c = sep then [] :: goSplit sep cs
    else
      match goSplit sep cs with
      | [] => [[c]]
      | l :: ls => (c :: l) :: ls

/-- Model of Go `strings.Join(pieces, sep)` for a one-character
separator. -/
def joinSep (sep : Char) : List (List Char) → List Char
  | [] => []
  | [l] => l
  | l :: ls => l ++ sep :: joinSep sep ls

/-- `strings.Join(pieces, "\n")`, as used by the chunker. -/
def joinNL (ls : List (List Char)) : List Char := joinSep '\n' ls

/-! ### MD5 (RFC 1321), as used by `crypto/md5` in `chunkFile`

The source computes `md5.Sum` of the id string and of the chunk content and
renders the digest with `hex.EncodeToString` (lower-case hex). The
implementation below is a direct transcription of the MD5 specification,
operating on byte lists with all 32-bit arithmetic done explicitly
modulo `2 ^ 32`. -/

/-- Truncate to 32 bits. -/
def m32 (x : Nat) : Nat := x % 4294967296

/-- 32-bit addition. -/
def add32 (a b : Nat) : Nat := (a + b) % 4294967296

/-- 32-bit complement (for arguments below `2 ^ 32`). -/
def not32 (x : Nat) : Nat := 4294967295 - x

/-- 32-bit rotate left. -/
def rotl32 (x r : Nat) : Nat :=
  Nat.lor ((x * 2 ^ r) % 4294967296) (x / 2 ^ (32 - r))

/-- The 64 MD5 sine-derived constants. -/
def md5K : List Nat :=
  [0xd76aa478, 0xe8c7b756, 0x242070db, 0xc1bdceee, 0xf57c0faf, 0x4787c62a,
   0xa8304613, 0xfd469501, 0x698098d8, 0x8b44f7af, 0xffff5bb1, 0x895cd7be,
   0x6b901122, 0xfd987193, 0xa679438e, 0x49b40821, 0xf61e2562, 0xc040b340,
   0x265e5a51, 0xe9b6c7aa, 0xd62f105d, 0x02441453, 0xd8a1e681, 0xe7d3fbc8,
   0x21e1cde6, 0xc33707d6, 0xf4d50d87, 0x455a14ed, 0xa9e3e905, 0xfcefa3f8,
   0x676f02d9, 0x8d2a4c8a, 0xfffa3942, 0x8771f681, 0x6d9d6122, 0xfde5380c,
   0xa4beea44, 0x4bdecfa9, 0xf6bb4b60, 0xbebfbc70, 0x289b7ec6, 0xeaa127fa,
   0xd4ef3085, 0x04881d05, 0xd9d4d039, 0xe6db99e5, 0x1fa27cf8, 0xc4ac5665,
   0xf4292244, 0x432aff97, 0xab9423a7, 0xfc93a039, 0x655b59c3, 0x8f0ccc92,
   0xffeff47d, 0x85845dd1, 0x6fa87e4f, 0xfe2ce6e0, 0xa3014314, 0x4e0811a1,
   0xf7537e82, 0xbd3af235, 0x2ad7d2bb, 0xeb86d391]

/-- The 64 MD5 per-round rotate amounts. -/
def md5S : List Nat :=
  [7, 12, 17, 22, 7, 12, 17, 22, 7, 12, 17, 22, 7, 12, 17, 22,
   5, 9, 14, 20, 5, 9, 14, 20, 5, 9, 14, 20, 5, 9, 14, 20,
   4, 11, 16, 23, 4, 11, 16, 23, 4, 11, 16, 23, 4, 11, 16, 23,
   6, 10, 15, 21, 6, 10, 15, 21, 6, 10, 15, 21, 6, 10, 15, 21]

/-- MD5 working state: the four 32-bit registers. -/
structure Md5State where
  a : Nat
  b : Nat
  c : Nat
  d : Nat
  deriving Repr, DecidableEq

/-- One MD5 operation (round `i` of 64) on a 16-word message block `M`. -/
def md5Round (M : List Nat) (st : Md5State) (i : Nat) : Md5State :=
  let f :=
    if i < 16 then Nat.lor (Nat.land st.b st.c) (Nat.land (not32 st.b) st.d)
    else if i < 32 then Nat.lor (Nat.land st.d st.b) (Nat.land (not32 st.d) st.c)
    else if i < 48 then Nat.xor st.b (Nat.xor st.c st.d)
    else Nat.xor st.c (Nat.lor st.b (not32 st.d))
  let g :=
    if i < 16 then i
    else if i < 32 then (5 * i + 1) % 16
    else if i < 48 then (3 * i + 5) % 16
    else (7 * i) % 16
  let f := add32 (add32 (add32 f st.a) (md5K.getD i 0)) (M.getD g 0)
  { a := st.d, b := add32 st.b (rotl32 f (md5S.getD i 0)), c := st.b, d := st.c }

/-- Process one 64-byte block (given as 16 little-endian words). -/
def md5Block (st : Md5State) (M : List Nat) : Md5State :=
  let r := (List.range 64).foldl (md5Round M) st
  { a := add32 st.a r.a, b := add32 st.b r.b, c := add32 st.c r.c, d := add32 st.d r.d }

/-- MD5 padding: `0x80`, zeros to 56 mod 64, then the 64-bit little-endian
bit length. -/
def md5Pad (msg : List Nat) : List Nat :=
  let len := msg.length
  let k := (64 + 56 - (len % 64 + 1)) % 64
  let bitLen := (len * 8) % 2 ^ 64
  msg ++ 0x80 :: List.replicate k 0 ++
    (List.range 8).map (fun j => bitLen / 2 ^ (8 * j) % 256)

/-- Group a byte list into little-endian 32-bit words (groups of four). -/
def bytesToWords : List Nat → List Nat
  | b0 :: b1 :: b2 :: b3 :: rest =>
    (b0 + 256 * (b1 + 256 * (b2 + 256 * b3))) :: bytesToWords rest
  | _ => []

/-- Accumulator for `toBlocks`: `cur` holds the bytes of the block being
assembled, in reverse order. -/
def toBlocksAux : List Nat → List Nat → List (List Nat)
  | cur, [] => if cur.isEmpty then [] else [cur.reverse]
  | cur, b :: rest =>
    if 64 ≤ cur.length + 1 then (cur.reverse ++ [b]) :: toBlocksAux [] rest
    else toBlocksAux (b :: cur) rest

/-- Split a byte list into 64-byte blocks (the padded MD5 message always
has a length that is a positive multiple of 64). -/
def toBlocks (l : List Nat) : List (List Nat) := toBlocksAux [] l

/-- Lower-case hex digit. -/
def hexDigit (n : Nat) : Char :=
  if n < 10 then Char.ofNat (48 + n) else Char.ofNat (87 + n)

/-- Two lower-case hex digits of one byte. -/
def byteHex (b : Nat) : List Char := [hexDigit (b / 16), hexDigit (b % 16)]

/-- Hex rendering of a 32-bit word, little-endian byte order (as
`hex.EncodeToString` renders the MD5 digest). -/
def wordHexLE (w : Nat) : List Char :=
  byteHex (w % 256) ++ byteHex (w / 256 % 256) ++
  byteHex (w / 65536 % 256) ++ byteHex (w / 16777216 % 256)

/-- MD5 digest of a byte list, rendered as 32 lower-case hex characters. -/
def md5HexBytes (msg : List Nat) : List Char :=
  let init : Md5State :=
    { a := 0x67452301, b := 0xefcdab89, c := 0x98badcfe, d := 0x10325476 }
  let final := (toBlocks (md5Pad msg)).foldl (fun st blk => md5Block st (bytesToWords blk)) init
  wordHexLE final.a ++ wordHexLE final.b ++ wordHexLE final.c ++ wordHexLE final.d

/-- UTF-8 encoding of one character (Go strings are UTF-8 byte slices). -/
def utf8Char (c : Char) : List Nat :=
  let n := c.toNat
  if n < 128 then [n]
  else if n < 2048 then [192 + n / 64, 128 + n % 64]
  else if n < 65536 then [224 + n / 4096, 128 + n / 64 % 64, 128 + n % 64]
  else [240 + n / 262144, 128 + n / 4096 % 64, 128 + n / 64 % 64, 128 + n % 64]

/-- UTF-8 encoding of a character list. -/
def utf8Bytes (s : List Char) : List Nat := s.flatMap utf8Char

/-- MD5 of a (modelled) Go string, as 32 lower-case hex characters:
the composition `hex.EncodeToString(md5.Sum([]byte(s)))` from `chunkFile`. -/
def md5Hex (s : List Char) : List Char := md5HexBytes (utf8Bytes s)

/-! ### Data model: `CodeChunk` and the chunking configuration -/

/-- The `CodeChunk` record from `main.go` (JSON-facing fields omitted
unchanged; `Embedding` is a vector of floats, modelled over `ℚ`). -/
structure CodeChunk where
  id : List Char := []
  content : List Char := []
  filePath : List Char := []
  projectPath : List Char := []
  language : List Char := []
  startLine : Nat := 0
  endLine : Nat := 0
  entityType : List Char := []
  name : List Char := []
  signature : List Char := []
  embedding : List ℚ := []
  hash : List Char := []
  score : ℚ := 0
  deriving Repr, DecidableEq

/-- The two `Config` fields consulted by the chunker (`MaxChunkSize`,
`ChunkOverlap`); Go `int`s, nonnegative in every reachable configuration
(flag defaults 1000 and 100). -/
structure RagConfig where
  maxChunkSize : Nat
  chunkOverlap : Nat
  deriving Repr, DecidableEq

/-- The flag defaults: `--max-chunk-size 1000 --chunk-overlap 100`. -/
def defaultConfig : RagConfig := { maxChunkSize := 1000, chunkOverlap := 100 }

/-- The synthetic name `fmt.Sprintf("chunk_%d_%d", startLine, endLine)`. -/
def chunkName (s e : Nat) : List Char :=
  strL "chunk_" ++ (Nat.repr s).data ++ '_' :: (Nat.repr e).data

/-- The accumulation loop of `chunkBySize` (`main.go` lines 727-761):
one iteration per remaining line, carrying the current chunk's lines, its
accumulated byte size and its 1-based start line. A chunk is emitted when
the accumulated size reaches `MaxChunkSize` or at the last line; the next
chunk starts with the last `ChunkOverlap` lines of the emitted one. -/
def chunkBySizeLoop (cfg : RagConfig) (filePath projectPath language : List Char) :
    List (List Char) → Nat → Nat → List (List Char) → List CodeChunk
  | _, _, _, [] => []
  | cur, curSize, startLine, line :: rest =>
    let cur' := cur ++ [line]
    let size' := curSize + (line.length + 1)
    if cfg.maxChunkSize ≤ size' ∨ rest = [] then
      let endLine := startLine + cur'.length - 1
      let ov := min cfg.chunkOverlap cur'.length
      let newCur := cur'.drop (cur'.length - ov)
      let newSize := newCur.foldl (fun acc l => acc + (l.length + 1)) 0
      { content := joinNL cur', filePath := filePath, projectPath := projectPath,
        language := language, startLine := startLine, endLine := endLine,
        entityType := strL "chunk", name := chunkName startLine endLine } ::
        chunkBySizeLoop cfg filePath projectPath language newCur newSize
          (endLine - ov + 1) rest
    else
      chunkBySizeLoop cfg filePath projectPath language cur' size' startLine rest

/-- `chunkBySize` (`main.go` lines 702-764): a file whose content fits in
`MaxChunkSize` becomes a single chunk spanning every line; otherwise the
size-based sliding window `chunkBySizeLoop` runs over the lines. -/
def chunkBySize (cfg : RagConfig) (content filePath projectPath language : List Char) :
    List CodeChunk :=
  let lines := goSplit '\n' content
  if content.length ≤ cfg.maxChunkSize then
    [{ content := content, filePath := filePath, projectPath := projectPath,
       language := language, startLine := 1, endLine := lines.length,
       entityType := strL "chunk", name := chunkName 1 lines.length }]
  else
    chunkBySizeLoop cfg filePath projectPath language [] 0 1 lines

/-! ### The Go structural chunker (`chunkGoCode`)

`chunkGoCode` applies two regular expressions with
`FindAllStringSubmatchIndex`:

* function: `func\s+(\w+)\s*\((.*?)\)(?:\s+\w+)?\s*` + open brace
* method:   `func\s+\(\w+\s+\*?\w+\)\s+(\w+)\s*\((.*?)\)(?:\s+\w+)?\s*` + open brace

The matcher below is a direct operational model of those two fixed
patterns: a backtracking matcher whose alternative order reproduces the
regexp engine's preference order (greedy quantifiers longest-first, the
lazy `.*?` shortest-first, optional groups tried before being skipped),
scanning for successive non-overlapping leftmost matches. -/

/-- Go regexp `\s` (the Perl whitespace class `[\t\n\f\r ]`). -/
def wsB (c : Char) : Bool :=
  c = ' ' || c = '\t' || c = '\n' || c = '\r' || c = Char.ofNat 12

/-- Go regexp `\w` (the ASCII word class `[0-9A-Za-z_]`). -/
def wordB (c : Char) : Bool := c.isAlphanum || c = '_'

/-- Go regexp `.` (any character except newline; the patterns are compiled
without the `s` flag). -/
def dotB (c : Char) : Bool := c ≠ '\n'

/-- One element of the (fixed) Go function/method patterns. -/
inductive GoReElem where
  /-- a literal character -/
  | lit : Char → GoReElem
  /-- greedy one-or-more of a character class -/
  | plusCls : (Char → Bool) → GoReElem
  /-- greedy zero-or-more of a character class -/
  | starCls : (Char → Bool) → GoReElem
  /-- greedy optional literal (for the `\*?` in the method pattern) -/
  | optLit : Char → GoReElem
  /-- the optional non-capturing return-type group `(?:\s+\w+)?` -/
  | optWsWord : GoReElem
  /-- the first capture `(\w+)` (the function or method name) -/
  | capWord : GoReElem
  /-- the second capture, the lazy `(.*?)` parameter list -/
  | capLazy : GoReElem

/-- First success over a list of candidate consumption lengths
(the backtracking choice points of a quantifier). -/
def firstSome {α : Type} (cands : List Nat) (f : Nat → Option α) : Option α :=
  match cands with
  | [] => none
  | k :: ks => (f k).orElse fun _ => firstSome ks f

/-- Candidate lengths for a greedy quantifier: `m` down to 1. -/
def descRange (m : Nat) : List Nat := (List.range m).reverse.map (· + 1)

/-- Candidate lengths for the lazy `.*?`: 0 up to `m`. -/
def ascRange (m : Nat) : List Nat := List.range (m + 1)

/-- Result of matching a pattern tail: remaining suffix, the name capture
and the signature capture. -/
def MseqRes : Type := List Char × List Char × List Char

/-- Backtracking matcher for one pattern at the head of `s`.
The fuel only bounds the pattern length (each recursive call consumes one
pattern element), keeping the recursion structural. -/
def mseq : Nat → List GoReElem → List Char → Option (List Char) →
    Option (List Char) → Option MseqRes
  | 0, _, _, _, _ => none
  | _ + 1, [], s, n?, g? => some (s, n?.getD [], g?.getD [])
  | fuel + 1, e :: es, s, n?, g? =>
    match e with
    | .lit c =>
      match s with
      | [] => none
      | c' :: s' => if c' = c then mseq fuel es s' n? g? else none
    | .plusCls p =>
      let m := (s.takeWhile p).length
      firstSome (descRange m) fun k => mseq fuel es (s.drop k) n? g?
    | .starCls p =>
      let m := (s.takeWhile p).length
      firstSome ((List.range (m + 1)).reverse) fun k => mseq fuel es (s.drop k) n? g?
    | .optLit c =>
      (match s with
       | c' :: s' => if c' = c then mseq fuel es s' n? g? else none
       | [] => none).orElse fun _ => mseq fuel es s n? g?
    | .optWsWord =>
      (firstSome (descRange (s.takeWhile wsB).length) fun k1 =>
        let s1 := s.drop k1
        firstSome (descRange (s1.takeWhile wordB).length) fun k2 =>
          mseq fuel es (s1.drop k2) n? g?).orElse
        fun _ => mseq fuel es s n? g?
    | .capWord =>
      let m := (s.takeWhile wordB).length
      firstSome (descRange m) fun k => mseq fuel es (s.drop k) (some (s.take k)) g?
    | .capLazy =>
      let m := (s.takeWhile dotB).length
      firstSome (ascRange m) fun k => mseq fuel es (s.drop k) n? (some (s.take k))

/-- One regexp match: start and end byte offsets plus the two captures
(the layout of `FindAllStringSubmatchIndex` rows as `chunkGoCode` reads
them). -/
structure GoMatch where
  start : Nat
  stop : Nat
  name : List Char
  sig : List Char
  deriving Repr, DecidableEq

/-- Scan for successive non-overlapping leftmost matches, the behaviour of
`FindAllStringSubmatchIndex(content, -1)`: try the pattern at each
position, and continue after the end of every match found. -/
def findMatchesAux (pat : List GoReElem) : Nat → List Char → Nat → List GoMatch
  | 0, _, _ => []
  | _ + 1, [], _ => []
  | fuel + 1, c :: s', pos =>
    match mseq 32 pat (c :: s') none none with
    | some (rest, name, sig) =>
      let len := (c :: s').length - rest.length
      let consumed := max len 1
      { start := pos, stop := pos + len, name := name, sig := sig } ::
        findMatchesAux pat fuel ((c :: s').drop consumed) (pos + consumed)
    | none => findMatchesAux pat fuel s' (pos + 1)

/-- All matches of a pattern in `s`. -/
def findMatches (pat : List GoReElem) (s : List Char) : List GoMatch :=
  findMatchesAux pat (s.length + 1) s 0

/-- The function pattern `func\s+(\w+)\s*\((.*?)\)(?:\s+\w+)?\s*` + brace. -/
def funcPattern : List GoReElem :=
  [.lit 'f', .lit 'u', .lit 'n', .lit 'c', .plusCls wsB, .capWord,
   .starCls wsB, .lit '(', .capLazy, .lit ')', .optWsWord, .starCls wsB,
   .lit braceOpen]

/-- The method pattern
`func\s+\(\w+\s+\*?\w+\)\s+(\w+)\s*\((.*?)\)(?:\s+\w+)?\s*` + brace. -/
def methodPattern : List GoReElem :=
  [.lit 'f', .lit 'u', .lit 'n', .lit 'c', .plusCls wsB, .lit '(',
   .plusCls wordB, .plusCls wsB, .optLit '*', .plusCls wordB, .lit ')',
   .plusCls wsB, .capWord, .starCls wsB, .lit '(', .capLazy, .lit ')',
   .optWsWord, .starCls wsB, .lit braceOpen]

/-- The `linePositions` array of `chunkGoCode`: the byte offset of each
line start, with one extra final entry (the total size). -/
def linePositionsAux : Nat → List (List Char) → List Nat
  | pos, [] => [pos]
  | pos, l :: ls => pos :: linePositionsAux (pos + l.length + 1) ls

/-- Byte offsets of the line starts of `content`. -/
def linePositions (content : List Char) : List Nat :=
  linePositionsAux 0 (goSplit '\n' content)

/-- The line lookup of `chunkGoCode`: `sort.Search` for the first position
greater than `p`, minus one, clamped at zero (`Nat` subtraction models the
clamp exactly). -/
def lineIdx (positions : List Nat) (p : Nat) : Nat :=
  positions.findIdx (fun q => decide (p < q)) - 1

/-- Chunk construction from the sorted match list: each match spans from
its own start to the start of the next match (or to end of file). -/
def buildGoChunks (content filePath projectPath : List Char)
    (positions : List Nat) : List (GoMatch × Bool) → List CodeChunk
  | [] => []
  | (m, isM) :: rest =>
    let endPos := match rest with
      | [] => content.length
      | (m', _) :: _ => m'.start
    { filePath := filePath, projectPath := projectPath,
      content := (content.drop m.start).take (endPos - m.start),
      startLine := lineIdx positions m.start + 1,
      endLine := lineIdx positions endPos + 1,
      entityType := if isM then strL "method" else strL "function",
      name := m.name, signature := m.sig, language := strL "Go" } ::
      buildGoChunks content filePath projectPath positions rest

/-- The comparison of `sort.Slice(allMatches, ...)`: ascending start
offset. -/
def matchLE (a b : GoMatch × Bool) : Prop := a.1.start ≤ b.1.start

instance : DecidableRel matchLE :=
  fun a b => inferInstanceAs (Decidable (a.1.start ≤ b.1.start))

instance : IsTotal (GoMatch × Bool) matchLE := ⟨fun a b => Nat.le_total a.1.start b.1.start⟩

instance : IsTrans (GoMatch × Bool) matchLE := ⟨fun _ _ _ h1 h2 => le_trans h1 h2⟩

/-- `chunkGoCode` (`main.go` lines 580-699): find all function and method
matches, merge and sort them by start offset, and emit one chunk per
match. -/
def chunkGoCode (content filePath projectPath : List Char) : List CodeChunk :=
  let fm := (findMatches funcPattern content).map fun m => (m, false)
  let mm := (findMatches methodPattern content).map fun m => (m, true)
  let allMatches := List.insertionSort matchLE (fm ++ mm)
  buildGoChunks content filePath projectPath (linePositions content) allMatches

/-- `chunkFile` (`main.go` lines 551-577): Go files go through the
structural chunker first; if that produced fewer than two chunks (and for
every other language) the size-based chunker runs instead. Finally every
chunk gets its deterministic `id` (MD5 of `filePath:startLine:endLine`)
and content `hash` (MD5 of the chunk content), both in lower-case hex. -/
def chunkFile (cfg : RagConfig) (content filePath projectPath language : List Char) :
    List CodeChunk :=
  let goChunks :=
    if language = strL "Go" then chunkGoCode content filePath projectPath else []
  let chunks :=
    if goChunks.length < 2 then chunkBySize cfg content filePath projectPath language
    else goChunks
  chunks.map fun c =>
    let idStr :=
      filePath ++ ':' :: (Nat.repr c.startLine).data ++ ':' :: (Nat.repr c.endLine).data
    { c with id := md5Hex idStr, hash := md5Hex c.content }

/-! ### Store writer (`storeChunks`)

The chunk-level protocol of `storeChunks` (`main.go` lines 865-923): for
each chunk, look up the stored hash for its `id`; if present and equal to
the incoming hash, skip; otherwise `MERGE` the chunk node and `SET` all of
its attributes. The store is modelled by the association of chunk `id` to
stored `hash` (the only attribute the protocol reads back), plus the list
of chunk ids written. -/

/-- The store: chunk `id` to stored `hash`. -/
def StoreState : Type := List (List Char × List Char)

/-- Look up the stored hash of a chunk id (`MATCH (c:Chunk {id: $id})
RETURN c.hash`). -/
def storeLookup (i : List Char) : StoreState → Option (List Char)
  | [] => none
  | (i', h) :: rest => if i' = i then some h else storeLookup i rest

/-- Upsert a chunk row (`MERGE (c:Chunk {id: $id}) ... SET c.hash = $hash`). -/
def storeSet (i h : List Char) : StoreState → StoreState
  | [] => [(i, h)]
  | (i', h') :: rest => if i' = i then (i, h) :: rest else (i', h') :: storeSet i h rest

/-- The chunk loop of `storeChunks`: returns the updated store and the ids
of the chunks actually written, in order (a skipped chunk writes
nothing). -/
def storeChunksModel (st : StoreState) : List CodeChunk → StoreState × List (List Char)
  | [] => (st, [])
  | c :: cs =>
    match storeLookup c.id st with
    | some h =>
      if h = c.hash then storeChunksModel st cs
      else
        let r := storeChunksModel (storeSet c.id c.hash st) cs
        (r.1, c.id :: r.2)
    | none =>
      let r := storeChunksModel (storeSet c.id c.hash st) cs
      (r.1, c.id :: r.2)

/-! ### Glob to regex (`globToRegex`) and the produced regular expressions

`globToRegex` escapes the glob with `regexp.QuoteMeta`, rewrites the
escaped wildcards, and anchors the result. The produced regex strings
contain only literals, escaped literals, `.` and starred atoms, so a small
matcher over exactly that language models how the store's `=~` operator
(anchored full match, `.` not matching newline) evaluates them. -/

/-- The characters `regexp.QuoteMeta` escapes. -/
def goSpecials : List Char :=
  ['\\', '.', '+', '*', '?', '(', ')', '|', '[', ']', braceOpen, braceClose, '^', '$']

/-- Model of Go `regexp.QuoteMeta`. -/
def quoteMeta : List Char → List Char
  | [] => []
  | c :: cs =>
    if goSpecials.contains c then '\\' :: c :: quoteMeta cs else c :: quoteMeta cs

/-- Does `pat` occur at the head of the second list? -/
def leadMatch : List Char → List Char → Bool
  | [], _ => true
  | _ :: _, [] => false
  | a :: as, b :: bs => a = b && leadMatch as bs

/-- Model of Go `strings.ReplaceAll` (non-overlapping, left to right) for
a non-empty `old`, with fuel keeping the recursion structural. -/
def replaceAllFuel (old new : List Char) : Nat → List Char → List Char
  | 0, s => s
  | _, [] => []
  | fuel + 1, c :: cs =>
    if leadMatch old (c :: cs) && !old.isEmpty then
      new ++ replaceAllFuel old new fuel ((c :: cs).drop old.length)
    else
      c :: replaceAllFuel old new fuel cs

/-- Model of Go `strings.ReplaceAll` for a non-empty `old`. -/
def replaceAll (old new s : List Char) : List Char :=
  replaceAllFuel old new s.length s

/-- `globToRegex` (`main.go` lines 1638-1651): quote, rewrite `\*` to `.*`
and `\?` to `.`, anchor with `^` and `$`. -/
def globToRegex (pattern : List Char) : List Char :=
  '^' :: replaceAll (strL "\\?") (strL ".")
    (replaceAll (strL "\\*") (strL ".*") (quoteMeta pattern)) ++ ['$']

/-- An atom of the produced regexes: a literal or `.`. -/
inductive RAtom where
  /-- a literal character (possibly written escaped in the regex) -/
  | rlit : Char → RAtom
  /-- the any-character-but-newline atom `.` -/
  | rdot : RAtom
  deriving Repr, DecidableEq

/-- An atom with an optional postfix `*`. -/
structure RElem where
  atom : RAtom
  star : Bool
  deriving Repr, DecidableEq

/-- Single-character semantics of an atom. -/
def atomB : RAtom → Char → Bool
  | .rlit c, c' => c' = c
  | .rdot, c' => c' ≠ '\n'

/-- Parse the body (between the anchors) of a regex produced by
`globToRegex`: escaped literals, `.`, plain literals, each optionally
starred. -/
def parseBody : List Char → List RElem
  | [] => []
  | '\\' :: c :: '*' :: rest => ⟨.rlit c, true⟩ :: parseBody rest
  | '\\' :: c :: rest => ⟨.rlit c, false⟩ :: parseBody rest
  | '.' :: '*' :: rest => ⟨.rdot, true⟩ :: parseBody rest
  | '.' :: rest => ⟨.rdot, false⟩ :: parseBody rest
  | c :: '*' :: rest => ⟨.rlit c, true⟩ :: parseBody rest
  | c :: rest => ⟨.rlit c, false⟩ :: parseBody rest

/-- Backtracking matcher for the parsed regex against a whole string
(anchored semantics); the fuel bounds pattern length plus input length and
keeps the recursion structural. -/
def reMatchF : Nat → List RElem → List Char → Bool
  | 0, _, _ => false
  | _ + 1, [], s => s.isEmpty
  | fuel + 1, ⟨a, false⟩ :: es, s =>
    match s with
    | [] => false
    | c :: s' => atomB a c && reMatchF fuel es s'
  | fuel + 1, ⟨a, true⟩ :: es, s =>
    reMatchF fuel es s ||
      (match s with
       | [] => false
       | c :: s' => atomB a c && reMatchF fuel (⟨a, true⟩ :: es) s')

/-- Full-string match of a parsed regex. -/
def reMatch (es : List RElem) (s : List Char) : Bool :=
  reMatchF (es.length + s.length + 1) es s

/-- Declarative semantics of the parsed regexes (used to reason about
`reMatch`). -/
inductive RMatch : List RElem → List Char → Prop where
  /-- the empty pattern matches the empty string -/
  | nil : RMatch [] []
  /-- an unstarred atom consumes one character -/
  | one {a : RAtom} {c : Char} {es : List RElem} {s : List Char} :
      atomB a c = true → RMatch es s → RMatch (⟨a, false⟩ :: es) (c :: s)
  /-- a starred atom may match zero characters -/
  | starSkip {a : RAtom} {es : List RElem} {s : List Char} :
      RMatch es s → RMatch (⟨a, true⟩ :: es) s
  /-- a starred atom may consume one character and continue -/
  | starCons {a : RAtom} {c : Char} {es : List RElem} {s : List Char} :
      atomB a c = true → RMatch (⟨a, true⟩ :: es) s →
      RMatch (⟨a, true⟩ :: es) (c :: s)

/-- Strip the `^` and `$` anchors added by `globToRegex`, then match the
body against the whole string: the semantics with which the store's `=~`
operator applies the produced regex to `c.file_path`. -/
def regexAccepts (re : List Char) (s : List Char) : Bool :=
  let r1 := match re with
    | '^' :: r => r
    | r => r
  let body := match r1.getLast? with
    | some '$' => r1.dropLast
    | _ => r1
  reMatch (parseBody body) s

/-! ### Retriever (`SearchCodeAdvanced`)

The ranking query of `SearchCodeAdvanced` (`main.go` lines 1144-1221),
modelled over an abstract corpus of stored chunks. The external
`gds.similarity.cosine(c.embedding, $embedding)` procedure is modelled as
a function parameter `vs` from the stored embedding to its similarity with
the (fixed) query embedding; `keywords` stands for
`extractKeywords(query)`. -/

/-- Substring test (the Cypher `CONTAINS` operator). -/
def containsSeq (n : List Char) : List Char → Bool
  | [] => n.isEmpty
  | c :: t => leadMatch n (c :: t) || containsSeq n t

/-- The `WHERE` clause assembled before the similarity computation:
language filter iff `languages` is non-empty, path filter (an `OR` of
anchored regex matches on `file_path`) iff `pathFilters` is non-empty, and
a keyword `OR` iff keyword search is on and some keyword is longer than
three characters. -/
def candPred (languages pathFilters keywords : List (List Char)) (useKeywords : Bool)
    (c : CodeChunk) : Bool :=
  (languages.isEmpty || languages.contains c.language) &&
  (pathFilters.isEmpty ||
    pathFilters.any fun p => regexAccepts (globToRegex p) c.filePath) &&
  (let kws := keywords.filter fun k => 3 < k.length
   !(useKeywords && !kws.isEmpty) || kws.any fun k => containsSeq k c.content)

/-- `CASE WHEN c.entity_type IN ['function', 'method'] THEN 0.1 ELSE 0`. -/
def entityBoost (c : CodeChunk) : ℚ :=
  if c.entityType = strL "function" ∨ c.entityType = strL "method" then mkRat 1 10
  else 0

/-- `CASE WHEN size(c.content) < 500 THEN 0.05 ELSE 0`. -/
def sizeBoost (c : CodeChunk) : ℚ :=
  if c.content.length < 500 then mkRat 1 20 else 0

/-- `CASE WHEN size(c.content) > 2000 THEN -0.05 ELSE 0`. -/
def sizePenalty (c : CodeChunk) : ℚ :=
  if 2000 < c.content.length then -(mkRat 1 20) else 0

/-- `score = vectorScore + entityBoost + sizeBoost + sizePenalty`. -/
def finalScore (vs : List ℚ → ℚ) (c : CodeChunk) : ℚ :=
  vs c.embedding + entityBoost c + sizeBoost c + sizePenalty c

/-- The `ORDER BY score DESC` ordering: an earlier row's score is at least
a later row's. -/
def scoreGE (a b : CodeChunk) : Prop := b.score ≤ a.score

instance : DecidableRel scoreGE :=
  fun a b => inferInstanceAs (Decidable (b.score ≤ a.score))

instance : IsTotal CodeChunk scoreGE := ⟨fun a b => le_total b.score a.score⟩

instance : IsTrans CodeChunk scoreGE := ⟨fun _ _ _ h1 h2 => le_trans h2 h1⟩

/-- The full ranking pipeline of `SearchCodeAdvanced`: filter by the
assembled `WHERE` clause, drop rows with `vectorScore ≤ minScore`, compute
the boosted score, drop rows with `score ≤ minScore`, order by score
descending and take the first `limit` rows. -/
def searchCodeAdvanced (corpus : List CodeChunk) (vs : List ℚ → ℚ) (limit : Nat)
    (languages pathFilters keywords : List (List Char)) (minScore : ℚ)
    (useKeywords : Bool) : List CodeChunk :=
  let cands := corpus.filter (candPred languages pathFilters keywords useKeywords)
  let passed := cands.filter fun c => minScore < vs c.embedding
  let scored := passed.map fun c => { c with score := finalScore vs c }
  let passed2 := scored.filter fun c => minScore < c.score
  let sorted := List.insertionSort scoreGE passed2
  sorted.take limit

/-! ### Embedding client (`generateEmbeddings` / `getEmbeddings`)

`getEmbeddings` posts the texts and JSON-decodes the response into
`EmbeddingResponse`; the decoded `embeddings` list is returned with no
length validation. The HTTP exchange is modelled by its outcome: `.error`
for a transport or decode failure, `.ok embs` for any successfully decoded
body. -/

/-- `getEmbeddings` (`main.go` lines 793-819): propagate a transport or
decode error, otherwise return the decoded embeddings as-is. -/
def getEmbeddings (texts : List (List Char))
    (response : Except (List Char) (List (List ℚ))) :
    Except (List Char) (List (List ℚ)) :=
  match texts, response with
  | _, .error e => .error e
  | _, .ok embs => .ok embs

/-- The assignment loop `for i, embedding := range embeddings` of
`generateEmbeddings`: `none` models the index-out-of-range panic hit when
the response holds more vectors than there are chunks; chunks beyond the
response length keep their (unset) embedding. -/
def assignEmbeddings : List CodeChunk → List (List ℚ) → Option (List CodeChunk)
  | cs, [] => some cs
  | [], _ :: _ => none
  | c :: cs, e :: es =>
    match assignEmbeddings cs es with
    | none => none
    | some r => some ({ c with embedding := e } :: r)

/-- `generateEmbeddings` (`main.go` lines 767-790): empty chunk lists are
returned immediately; otherwise the embedding service is called once with
all chunk contents and the vectors are assigned positionally. The outer
`Option` is the panic model of `assignEmbeddings`. -/
def generateEmbeddings (chunks : List CodeChunk)
    (response : Except (List Char) (List (List ℚ))) :
    Option (Except (List Char) (List CodeChunk)) :=
  if chunks.isEmpty then some (.ok chunks)
  else
    match getEmbeddings (chunks.map (·.content)) response with
    | .error e => some (.error e)
    | .ok embs =>
      match assignEmbeddings chunks embs with
      | none => none
      | some cs => some (.ok cs)

/-! ### Project-path determination (`processFile`)

`processFile` (`main.go` lines 508-522) computes
`relPath = filepath.Rel(rootDir, filePath)`, splits it on the path
separator, and sets the project path to `filepath.Join(rootDir, parts[0])`
when the relative path has more than one component, else to `rootDir`
itself. -/

/-- Strip the common leading components of two component lists. -/
def dropCommon : List (List Char) → List (List Char) →
    List (List Char) × List (List Char)
  | r :: rs, t :: ts =>
    if r = t then dropCommon rs ts else (r :: rs, t :: ts)
  | rs, ts => (rs, ts)

/-- Modelled from Go `path/filepath.Rel` for clean slash-separated paths
(the shape of every path the walker produces): strip the common component
handing of both paths, then prepend one `..` per remaining base component.
`Rel`'s error case (caught in `processFile` by falling back to the target
path itself) is not reachable for such inputs. -/
def relModel (root targ : List Char) : List Char :=
  if root = targ then ['.']
  else
    let p := dropCommon (goSplit '/' root) (goSplit '/' targ)
    joinSep '/' (p.1.map (fun _ => strL "..") ++ p.2)

/-- Modelled from Go `path/filepath.Join` for clean, non-empty arguments. -/
def filepathJoin (a b : List Char) : List Char := a ++ '/' :: b

/-- The project-path determination of `processFile`. -/
def projectPathOf (rootDir filePath : List Char) : List Char :=
  let relPath := relModel rootDir filePath
  let pathParts := goSplit '/' relPath
  if 1 < pathParts.length then filepathJoin rootDir (pathParts.headD [])
  else rootDir

/-! ### Lemmas about splitting and joining -/

theorem goSplit_ne_nil (sep : Char) (s : List Char) : goSplit sep s ≠ [] := by
  induction s with
  | nil => simp [goSplit]
  | cons c cs ih =>
    simp only [goSplit]
    split
    · simp
    · cases h : goSplit sep cs <;> simp

theorem goSplit_append_sep (sep : Char) (x y : List Char) :
    goSplit sep (x ++ sep :: y) = goSplit sep x ++ goSplit sep y := by
  induction x with
  | nil => simp [goSplit]
  | cons c x ih =>
    by_cases hc : c = sep
    · subst hc
      simp [goSplit, ih]
    · obtain ⟨l, ls, hx⟩ : ∃ l ls, goSplit sep x = l :: ls := by
        cases h : goSplit sep x with
        | nil => exact absurd h (goSplit_ne_nil sep x)
        | cons l ls => exact ⟨l, ls, rfl⟩
      simp [goSplit, hc, ih, hx]

theorem goSplit_eq_single {sep : Char} {s : List Char} (h : sep ∉ s) :
    goSplit sep s = [s] := by
  induction s with
  | nil => rfl
  | cons c cs ih =>
    have hc : c ≠ sep := fun hc => h (hc ▸ List.mem_cons_self c cs)
    have hcs : sep ∉ cs := fun hm => h (List.mem_cons_of_mem c hm)
    simp only [goSplit, if_neg hc, ih hcs]

theorem joinSep_cons {sep : Char} {ls : List (List Char)} (l : List Char)
    (h : ls ≠ []) : joinSep sep (l :: ls) = l ++ sep :: joinSep sep ls := by
  cases ls with
  | nil => exact absurd rfl h
  | cons m ms => rfl

theorem joinSep_goSplit (sep : Char) (s : List Char) :
    joinSep sep (goSplit sep s) = s := by
  induction s with
  | nil => rfl
  | cons c cs ih =>
    by_cases hc : c = sep
    · subst hc
      rw [goSplit, if_pos rfl, joinSep_cons _ (goSplit_ne_nil _ cs), ih]
      rfl
    · rw [goSplit, if_neg hc]
      obtain ⟨l, ls, hx⟩ : ∃ l ls, goSplit sep cs = l :: ls := by
        cases h : goSplit sep cs with
        | nil => exact absurd h (goSplit_ne_nil sep cs)
        | cons l ls => exact ⟨l, ls, rfl⟩
      rw [hx] at ih ⊢
      cases ls with
      | nil => simpa [joinSep] using congrArg (c :: ·) ih
      | cons m ms =>
        rw [joinSep_cons _ (by simp)] at ih ⊢
        simpa using congrArg (c :: ·) ih

theorem not_mem_of_mem_goSplit {sep : Char} {s l : List Char}
    (h : l ∈ goSplit sep s) : sep ∉ l := by
  induction s generalizing l with
  | nil =>
    simp only [goSplit, List.mem_singleton] at h
    subst h; simp
  | cons c cs ih =>
    by_cases hc : c = sep
    · subst hc
      rw [goSplit, if_pos rfl] at h
      rcases List.mem_cons.mp h with h | h
      · subst h; simp
      · exact ih h
    · rw [goSplit, if_neg hc] at h
      obtain ⟨m, ms, hx⟩ : ∃ m ms, goSplit sep cs = m :: ms := by
        cases h' : goSplit sep cs with
        | nil => exact absurd h' (goSplit_ne_nil sep cs)
        | cons m ms => exact ⟨m, ms, rfl⟩
      rw [hx] at h
      rcases List.mem_cons.mp h with h | h
      · subst h
        intro hm
        rcases List.mem_cons.mp hm with hm | hm
        · exact hc hm.symm
        · exact ih (hx ▸ List.mem_cons_self m ms) hm
      · exact ih (hx ▸ List.mem_cons_of_mem m h)

theorem goSplit_joinSep {sep : Char} {ls : List (List Char)}
    (hnl : ∀ l ∈ ls, sep ∉ l) (hne : ls ≠ []) :
    goSplit sep (joinSep sep ls) = ls := by
  induction ls with
  | nil => exact absurd rfl hne
  | cons l ls ih =>
    cases ls with
    | nil => exact goSplit_eq_single (hnl l (List.mem_cons_self l []))
    | cons m ms =>
      rw [joinSep_cons _ (by simp), goSplit_append_sep,
        goSplit_eq_single (hnl l (List.mem_cons_self l _)),
        ih (fun x hx => hnl x (List.mem_cons_of_mem l hx)) (by simp)]
      rfl

theorem joinSep_append {sep : Char} {as bs : List (List Char)}
    (ha : as ≠ []) (hb : bs ≠ []) :
    joinSep sep (as ++ bs) = joinSep sep as ++ sep :: joinSep sep bs := by
  induction as with
  | nil => exact absurd rfl ha
  | cons a as ih =>
    cases as with
    | nil => simp [joinSep, joinSep_cons a hb]
    | cons a' as' =>
      rw [List.cons_append, joinSep_cons _ (by simp),
        joinSep_cons _ (by simp : (a' :: as') ≠ []), ih (by simp) ]
      simp

theorem dropCommon_self_append (xs ys : List (List Char)) :
    dropCommon xs (xs ++ ys) = ([], ys) := by
  induction xs with
  | nil => cases ys <;> rfl
  | cons x xs ih => simp [dropCommon, ih]

/-- C10: the project path attached to a file's chunks is the root joined
with the first component of the file's root-relative path when the file
lies in a subdirectory, and the root itself when the file sits directly in
the root. -/
theorem c10_project_path (root name sub rest : List Char) :
    ('/' ∉ name → projectPathOf root (root ++ '/' :: name) = root) ∧
    ('/' ∉ sub → projectPathOf root (root ++ '/' :: sub ++ '/' :: rest) =
      root ++ '/' :: sub) := by
  constructor
  · intro h
    have hne : root ≠ root ++ '/' :: name := by
      intro he
      have := congrArg List.length he
      simp at this
    rw [projectPathOf, relModel, if_neg hne, goSplit_append_sep,
      goSplit_eq_single h, dropCommon_self_append]
    simp [goSplit_eq_single h, joinSep]
  · intro h
    have hne : root ≠ root ++ '/' :: sub ++ '/' :: rest := by
      intro he
      have := congrArg List.length he
      simp at this
    obtain ⟨m, ms, hx⟩ : ∃ m ms, goSplit '/' rest = m :: ms := by
      cases h' : goSplit '/' rest with
      | nil => exact absurd h' (goSplit_ne_nil '/' rest)
      | cons m ms => exact ⟨m, ms, rfl⟩
    have h1 : goSplit '/' (root ++ '/' :: sub ++ '/' :: rest) =
        goSplit '/' root ++ (sub :: goSplit '/' rest) := by
      rw [goSplit_append_sep, goSplit_append_sep, goSplit_eq_single h,
        List.append_assoc]
      rfl
    have hsplit : goSplit '/' (sub ++ '/' :: rest) = sub :: goSplit '/' rest := by
      rw [goSplit_append_sep, goSplit_eq_single h]
      rfl
    have hjoin : joinSep '/' (sub :: goSplit '/' rest) = sub ++ '/' :: rest := by
      rw [joinSep_cons _ (goSplit_ne_nil '/' rest), joinSep_goSplit]
    rw [projectPathOf, relModel, if_neg hne, h1, dropCommon_self_append]
    simp only [List.map_nil, List.nil_append]
    rw [hjoin, hsplit, hx]
    simp [filepathJoin]

theorem c10_witness :
    projectPathOf (strL "/code") (strL "/code" ++ '/' :: strL "a.go") = strL "/code" ∧
    projectPathOf (strL "/code")
        (strL "/code" ++ '/' :: strL "proj" ++ '/' :: strL "x/y.go") =
      strL "/code" ++ '/' :: strL "proj" :=
  ⟨(c10_project_path (strL "/code") (strL "a.go") (strL "proj") (strL "x/y.go")).1
      (by decide),
   (c10_project_path (strL "/code") (strL "a.go") (strL "proj") (strL "x/y.go")).2
      (by decide)⟩

/-! ### C1: the single-Go-function ingest scenario -/

/-- The file content of the spec's single-Go-function scenario:
`func Hello(name string) string` followed by a one-line body. -/
def helloSrc : List Char := strL "func Hello(name string) string \x7b return \"hi\" \x7d"

set_option maxRecDepth 40000 in
/-- C1, counterexample: for the spec's single-Go-function file, `chunkFile`
does NOT return a chunk with `entity_type = "function"` (the single
structural match is fewer than two chunks, so the size-based fallback
replaces it). -/
theorem c1_counterexample :
    ¬ ∃ c ∈ chunkFile defaultConfig helloSrc (strL "a.go") (strL "/code") (strL "Go"),
        c.entityType = strL "function" ∧ c.name = strL "Hello" ∧
        c.signature = strL "name string" := by
  decide

set_option maxRecDepth 40000 in
/-- C1, amended: the Go structural pass finds the one function, but one
chunk is fewer than two, so the size-based fallback produces the single
returned chunk: `entity_type = "chunk"`, `name = "chunk_1_1"`, empty
signature, `start_line = 1`, `end_line = 1`. -/
theorem c1_amended :
    (chunkFile defaultConfig helloSrc (strL "a.go") (strL "/code") (strL "Go")).map
        (fun c => (c.entityType, c.name, c.signature, c.startLine, c.endLine)) =
      [(strL "chunk", strL "chunk_1_1", [], 1, 1)] ∧
    ((findMatches funcPattern helloSrc).map fun m => (m.name, m.sig)) =
      [(strL "Hello", strL "name string")] := by
  constructor
  · decide
  · decide

/-! ### C3: re-ingest idempotence -/

theorem storeLookup_storeSet (k i h : List Char) (st : StoreState) :
    storeLookup k (storeSet i h st) = if i = k then some h else storeLookup k st := by
  induction st with
  | nil => simp [storeSet, storeLookup]
  | cons p rest ih =>
    obtain ⟨i', h'⟩ := p
    by_cases hii : i' = i
    · subst hii
      by_cases hk : i' = k
      · subst hk
        simp [storeSet, storeLookup]
      · simp [storeSet, storeLookup, hk]
    · by_cases hk : i' = k
      · subst hk
        have hik : ¬i = i' := fun he => hii he.symm
        simp [storeSet, storeLookup, hii, hik]
      · simp [storeSet, storeLookup, hii, hk, ih]

/-- The store update performed for one chunk (the branch structure of the
chunk loop, store component only). -/
def stepStore (st : StoreState) (c : CodeChunk) : StoreState :=
  match storeLookup c.id st with
  | some h => if h = c.hash then st else storeSet c.id c.hash st
  | none => storeSet c.id c.hash st

theorem storeRun_fst_cons (st : StoreState) (c : CodeChunk) (cs : List CodeChunk) :
    (storeChunksModel st (c :: cs)).1 = (storeChunksModel (stepStore st c) cs).1 := by
  cases hl : storeLookup c.id st with
  | none => simp [storeChunksModel, stepStore, hl]
  | some h =>
    by_cases he : h = c.hash <;> simp [storeChunksModel, stepStore, hl, he]

theorem stepStore_lookup_self (st : StoreState) (c : CodeChunk) :
    storeLookup c.id (stepStore st c) = some c.hash := by
  simp only [stepStore]
  cases hl : storeLookup c.id st with
  | none => simp [storeLookup_storeSet]
  | some h =>
    by_cases he : h = c.hash
    · simp [he, hl]
    · simp [he, storeLookup_storeSet]

theorem storeRun_lookup_of_not_mem (k : List Char) (cs : List CodeChunk)
    (st : StoreState) (h : ∀ c ∈ cs, c.id ≠ k) :
    storeLookup k (storeChunksModel st cs).1 = storeLookup k st := by
  induction cs generalizing st with
  | nil => rfl
  | cons c cs ih =>
    have hck : c.id ≠ k := h c (List.mem_cons_self c cs)
    have h' : ∀ c' ∈ cs, c'.id ≠ k := fun c' hc' => h c' (List.mem_cons_of_mem _ hc')
    rw [storeRun_fst_cons, ih _ h']
    simp only [stepStore]
    cases hl : storeLookup c.id st with
    | none => simp [storeLookup_storeSet, hck]
    | some hs =>
      by_cases he : hs = c.hash
      · simp [he]
      · simp [he, storeLookup_storeSet, hck]

theorem storeRun_establishes : ∀ cs : List CodeChunk,
    (∀ c ∈ cs, ∀ c' ∈ cs, c.id = c'.id → c.hash = c'.hash) →
    ∀ st : StoreState, ∀ c ∈ cs,
      storeLookup c.id (storeChunksModel st cs).1 = some c.hash := by
  intro cs
  induction cs with
  | nil => intro _ st c hc; simp at hc
  | cons c0 cs ih =>
    intro hcoh st c hc
    have hcoh' : ∀ a ∈ cs, ∀ b ∈ cs, a.id = b.id → a.hash = b.hash :=
      fun a ha b hb =>
        hcoh a (List.mem_cons_of_mem _ ha) b (List.mem_cons_of_mem _ hb)
    rw [storeRun_fst_cons]
    rcases List.mem_cons.mp hc with rfl | hc
    · by_cases hex : ∃ c' ∈ cs, c'.id = c.id
      · obtain ⟨c', hc', hid⟩ := hex
        have h1 := ih hcoh' (stepStore st c) c' hc'
        have h2 : c'.hash = c.hash :=
          hcoh c' (List.mem_cons_of_mem _ hc') c (List.mem_cons_self c cs) hid
        rw [hid] at h1
        rw [h1, h2]
      · push_neg at hex
        rw [storeRun_lookup_of_not_mem _ _ _ hex]
        exact stepStore_lookup_self st c
    · exact ih hcoh' (stepStore st c0) c hc

theorem storeRun_all_hit : ∀ (cs : List CodeChunk) (st : StoreState),
    (∀ c ∈ cs, storeLookup c.id st = some c.hash) →
    storeChunksModel st cs = (st, []) := by
  intro cs
  induction cs with
  | nil => intro st _; rfl
  | cons c cs ih =>
    intro st h
    have h1 := h c (List.mem_cons_self c cs)
    simp only [storeChunksModel, h1, if_pos rfl]
    exact ih st fun c' hc' => h c' (List.mem_cons_of_mem _ hc')

/-- C3: chunking is deterministic, so an unchanged file yields identical
chunk ids and hashes across two ingest runs, and on the second run the
store loop skips every chunk (zero chunk writes, store unchanged) —
granted that distinct chunks of the file do not collide on `id` with
different hashes (true of every concrete file below; not provable for
MD5 in general). -/
theorem c3_reingest_idempotent (cfg : RagConfig)
    (content₁ content₂ fp pp lang : List Char) (hsame : content₁ = content₂) :
    ((chunkFile cfg content₁ fp pp lang).map (fun c => c.id) =
        (chunkFile cfg content₂ fp pp lang).map (fun c => c.id) ∧
      (chunkFile cfg content₁ fp pp lang).map (fun c => c.hash) =
        (chunkFile cfg content₂ fp pp lang).map (fun c => c.hash)) ∧
    ((∀ c ∈ chunkFile cfg content₁ fp pp lang,
        ∀ c' ∈ chunkFile cfg content₁ fp pp lang,
          c.id = c'.id → c.hash = c'.hash) →
      storeChunksModel
          (storeChunksModel [] (chunkFile cfg content₁ fp pp lang)).1
          (chunkFile cfg content₂ fp pp lang) =
        ((storeChunksModel [] (chunkFile cfg content₁ fp pp lang)).1, [])) := by
  subst hsame
  refine ⟨⟨rfl, rfl⟩, fun hcoh => ?_⟩
  exact storeRun_all_hit _ _ fun c hc => storeRun_establishes _ hcoh [] c hc

set_option maxRecDepth 40000 in
theorem c3_witness :
    storeChunksModel
        (storeChunksModel []
          (chunkFile defaultConfig (strL "x = 1") (strL "/r/f.py") (strL "/r")
            (strL "Python"))).1
        (chunkFile defaultConfig (strL "x = 1") (strL "/r/f.py") (strL "/r")
          (strL "Python")) =
      ((storeChunksModel []
          (chunkFile defaultConfig (strL "x = 1") (strL "/r/f.py") (strL "/r")
            (strL "Python"))).1, []) :=
  (c3_reingest_idempotent defaultConfig _ _ _ _ _ rfl).2 (by decide)

/-! ### C7: the embedding client performs no length validation -/

theorem assignEmbeddings_of_le : ∀ (embs : List (List ℚ)) (cs : List CodeChunk),
    embs.length ≤ cs.length →
    assignEmbeddings cs embs =
      some (List.zipWith (fun c v => { c with embedding := v }) cs embs ++
        cs.drop embs.length) := by
  intro embs
  induction embs with
  | nil => intro cs _; simp [assignEmbeddings]
  | cons e es ih =>
    intro cs hle
    cases cs with
    | nil => simp at hle
    | cons c cs' =>
      have : es.length ≤ cs'.length := by simpa using hle
      simp [assignEmbeddings, ih cs' this]

theorem assignEmbeddings_of_lt : ∀ (cs : List CodeChunk) (embs : List (List ℚ)),
    cs.length < embs.length → assignEmbeddings cs embs = none := by
  intro cs
  induction cs with
  | nil =>
    intro embs hlt
    cases embs with
    | nil => simp at hlt
    | cons e es => rfl
  | cons c cs' ih =>
    intro embs hlt
    cases embs with
    | nil => simp at hlt
    | cons e es =>
      have : cs'.length < es.length := by simpa using hlt
      simp [assignEmbeddings, ih es this]

/-- A two-chunk file for the C7 counterexample. -/
def c7a : CodeChunk := { content := strL "aa" }

/-- Second chunk of the C7 counterexample file. -/
def c7b : CodeChunk := { content := strL "bb" }

/-- C7, counterexample: a decoded response with one vector for two chunks
is not rejected — `generateEmbeddings` returns success while the second
chunk is left with no embedding, contradicting the claim that a malformed
response fails and that no chunk is left unembedded on success. -/
theorem c7_counterexample :
    generateEmbeddings [c7a, c7b] (Except.ok [[1]]) =
      some (Except.ok [{ c7a with embedding := [1] }, c7b]) ∧
    c7b.embedding = [] := by
  exact ⟨rfl, rfl⟩

/-- C7, amended: the client validates nothing. A transport or decode error
propagates as a failure (for a non-empty chunk list); a decoded response
with at most one vector per chunk succeeds, assigning vectors positionally
and leaving trailing chunks without an embedding; a response with more
vectors than chunks crashes the assignment loop (index out of range).
Only a response with exactly one vector per text embeds every chunk. -/
theorem c7_amended (chunks : List CodeChunk) (e : List Char) (embs : List (List ℚ)) :
    (chunks ≠ [] → generateEmbeddings chunks (.error e) = some (.error e)) ∧
    (embs.length ≤ chunks.length →
      generateEmbeddings chunks (.ok embs) =
        some (.ok (List.zipWith (fun c v => { c with embedding := v }) chunks embs ++
          chunks.drop embs.length))) ∧
    (chunks ≠ [] → chunks.length < embs.length →
      generateEmbeddings chunks (.ok embs) = none) := by
  refine ⟨fun hne => ?_, fun hle => ?_, fun hne hlt => ?_⟩
  · cases chunks with
    | nil => exact absurd rfl hne
    | cons c cs => simp [generateEmbeddings, getEmbeddings]
  · cases chunks with
    | nil =>
      have : embs = [] := List.length_eq_zero.mp (Nat.le_zero.mp hle)
      subst this
      simp [generateEmbeddings]
    | cons c cs =>
      simp [generateEmbeddings, getEmbeddings, assignEmbeddings_of_le embs _ hle]
  · cases chunks with
    | nil => exact absurd rfl hne
    | cons c cs =>
      simp [generateEmbeddings, getEmbeddings, assignEmbeddings_of_lt _ embs hlt]

theorem c7_witness :
    generateEmbeddings [c7a] (Except.ok [[2]]) =
      some (Except.ok
        (List.zipWith (fun c v => { c with embedding := v }) [c7a] [[2]] ++
          ([c7a] : List CodeChunk).drop 1)) :=
  (c7_amended [c7a] (strL "boom") [[2]]).2.1 (by decide)

/-! ### C5 and C6: threshold, ordering, limit, and the score formula -/

theorem searchCodeAdvanced_mem_decompose
    {corpus : List CodeChunk} {vs : List ℚ → ℚ} {limit : Nat}
    {languages pathFilters keywords : List (List Char)} {minScore : ℚ}
    {useKeywords : Bool} {c : CodeChunk}
    (hc : c ∈ searchCodeAdvanced corpus vs limit languages pathFilters keywords
      minScore useKeywords) :
    ∃ c₀ ∈ corpus, candPred languages pathFilters keywords useKeywords c₀ = true ∧
      minScore < vs c₀.embedding ∧ c = { c₀ with score := finalScore vs c₀ } ∧
      minScore < c.score := by
  simp only [searchCodeAdvanced] at hc
  have h1 := List.mem_of_mem_take hc
  have h2 := (List.Perm.mem_iff (List.perm_insertionSort scoreGE _)).mp h1
  obtain ⟨h3, hs⟩ := List.mem_filter.mp h2
  obtain ⟨c₀, h4, rfl⟩ := List.mem_map.mp h3
  obtain ⟨h5, hv⟩ := List.mem_filter.mp h4
  obtain ⟨h6, hp⟩ := List.mem_filter.mp h5
  exact ⟨c₀, h6, hp, by simpa using hv, rfl, by simpa using hs⟩

/-- C5: every row returned by the advanced search beats the threshold both
on its raw cosine score and on its boosted final score (strictly), the
result is sorted by score descending, and at most `limit` rows are
returned. -/
theorem c5_threshold_order_limit (corpus : List CodeChunk) (vs : List ℚ → ℚ)
    (limit : Nat) (languages pathFilters keywords : List (List Char))
    (minScore : ℚ) (useKeywords : Bool) :
    (∀ c ∈ searchCodeAdvanced corpus vs limit languages pathFilters keywords
        minScore useKeywords,
      minScore < vs c.embedding ∧ minScore < c.score) ∧
    List.Sorted scoreGE
      (searchCodeAdvanced corpus vs limit languages pathFilters keywords
        minScore useKeywords) ∧
    (searchCodeAdvanced corpus vs limit languages pathFilters keywords
        minScore useKeywords).length ≤ limit := by
  refine ⟨?_, ?_, ?_⟩
  · intro c hc
    obtain ⟨c₀, _, _, hv, rfl, hs⟩ := searchCodeAdvanced_mem_decompose hc
    exact ⟨hv, hs⟩
  · simp only [searchCodeAdvanced]
    exact List.Pairwise.sublist (List.take_sublist _ _)
      (List.sorted_insertionSort scoreGE _)
  · simp only [searchCodeAdvanced]
    rw [List.length_take]
    exact min_le_left _ _

/-- The 200-byte function chunk of the spec's ranking scenario. -/
def c6func : CodeChunk :=
  { content := List.replicate 200 'x', entityType := strL "function",
    name := strL "F" }

/-- The 2500-byte non-function chunk of the spec's ranking scenario. -/
def c6big : CodeChunk :=
  { content := List.replicate 2500 'y', entityType := strL "chunk",
    name := strL "M" }

unseal Rat.add in
/-- C6: every returned row's score is its cosine score plus the 0.1
function/method boost, plus the 0.05 small-chunk boost (content under 500),
plus the −0.05 large-chunk penalty (content over 2000); concretely, with
both cosine scores 0.5, the 200-byte function scores 0.65, the 2500-byte
non-function chunk scores 0.45, and the function ranks first. -/
theorem c6_score_formula_ranking :
    (∀ (corpus : List CodeChunk) (vs : List ℚ → ℚ) (limit : Nat)
        (languages pathFilters keywords : List (List Char)) (minScore : ℚ)
        (useKeywords : Bool),
      ∀ c ∈ searchCodeAdvanced corpus vs limit languages pathFilters keywords
          minScore useKeywords,
        c.score = vs c.embedding + entityBoost c + sizeBoost c + sizePenalty c) ∧
    searchCodeAdvanced [c6big, c6func] (fun _ => mkRat 1 2) 10 [] [] [] (mkRat 1 10)
        false =
      [{ c6func with score := mkRat 13 20 }, { c6big with score := mkRat 9 20 }] := by
  constructor
  · intro corpus vs limit languages pathFilters keywords minScore useKeywords c hc
    obtain ⟨c₀, _, _, _, rfl, _⟩ := searchCodeAdvanced_mem_decompose hc
    rfl
  · have hb : finalScore (fun _ => mkRat 1 2) c6big = mkRat 9 20 := by
      have h1 : entityBoost c6big = 0 := by
        simp only [entityBoost, c6big]
        rw [if_neg (by decide)]
      have h2 : sizeBoost c6big = 0 := by
        simp only [sizeBoost, c6big, List.length_replicate]
        rw [if_neg (by decide)]
      have h3 : sizePenalty c6big = -(mkRat 1 20) := by
        simp only [sizePenalty, c6big, List.length_replicate]
        rw [if_pos (by decide)]
      simp only [finalScore, h1, h2, h3]
      decide
    have hf : finalScore (fun _ => mkRat 1 2) c6func = mkRat 13 20 := by
      have h1 : entityBoost c6func = mkRat 1 10 := by
        simp only [entityBoost, c6func]
        rw [if_pos (by decide)]
      have h2 : sizeBoost c6func = mkRat 1 20 := by
        simp only [sizeBoost, c6func, List.length_replicate]
        rw [if_pos (by decide)]
      have h3 : sizePenalty c6func = 0 := by
        simp only [sizePenalty, c6func, List.length_replicate]
        rw [if_neg (by decide)]
      simp only [finalScore, h1, h2, h3]
      decide
    have hcp : ∀ c, candPred [] [] [] false c = true := by
      intro c
      simp [candPred]
    have hd1 : (decide (mkRat 1 10 < mkRat 1 2)) = true := rfl
    have hd2 : (decide (mkRat 1 10 < mkRat 9 20)) = true := rfl
    have hd3 : (decide (mkRat 1 10 < mkRat 13 20)) = true := rfl
    simp only [searchCodeAdvanced, List.filter_cons, hcp, hb, hf]
    simp only [ite_true, hd1, if_true]
    simp only [List.filter_cons, List.filter_nil, List.map_cons, List.map_nil, hb, hf,
      hd2, hd3, if_true, eq_self_iff_true, ite_true]
    generalize c6big.content = bc
    generalize c6func.content = fc
    simp only [List.insertionSort, List.orderedInsert]
    split
    next hcond => exact absurd (show mkRat 13 20 ≤ mkRat 9 20 from hcond) (by decide)
    next hcond => rfl

set_option maxRecDepth 40000 in
unseal Rat.add in
theorem c5_witness :
    mkRat 1 10 <
        (fun _ => mkRat 1 2) ({ c6func with score := mkRat 13 20 } : CodeChunk).embedding ∧
      mkRat 1 10 < ({ c6func with score := mkRat 13 20 } : CodeChunk).score :=
  (c5_threshold_order_limit [c6func] (fun _ => mkRat 1 2) 10 [] [] []
      (mkRat 1 10) false).1 _ (by decide)

set_option maxRecDepth 40000 in
unseal Rat.add in
theorem c6_witness :
    ({ c6func with score := mkRat 13 20 } : CodeChunk).score =
      (fun _ => mkRat 1 2) ({ c6func with score := mkRat 13 20 } : CodeChunk).embedding +
        entityBoost { c6func with score := mkRat 13 20 } +
        sizeBoost { c6func with score := mkRat 13 20 } +
        sizePenalty { c6func with score := mkRat 13 20 } :=
  (c6_score_formula_ranking).1 [c6func] (fun _ => mkRat 1 2) 10 [] [] []
    (mkRat 1 10) false _ (by decide)

/-! ### C9: `1 ≤ start_line ≤ end_line` for every produced chunk -/

theorem chunkBySizeLoop_lines (cfg : RagConfig) (fp pp lang : List Char) :
    ∀ (rest cur : List (List Char)) (curSize startLine : Nat),
      1 ≤ startLine →
      ∀ c ∈ chunkBySizeLoop cfg fp pp lang cur curSize startLine rest,
        1 ≤ c.startLine ∧ c.startLine ≤ c.endLine := by
  intro rest
  induction rest with
  | nil =>
    intro cur curSize startLine _ c hc
    simp [chunkBySizeLoop] at hc
  | cons line rest ih =>
    intro cur curSize startLine hs c hc
    simp only [chunkBySizeLoop] at hc
    split at hc
    · rcases List.mem_cons.mp hc with rfl | hc'
      · refine ⟨hs, ?_⟩
        simp only
        have : (cur ++ [line]).length = cur.length + 1 := by simp
        omega
      · exact ih _ _ _ (by omega) c hc'
    · exact ih _ _ _ hs c hc

theorem chunkBySize_lines (cfg : RagConfig) (content fp pp lang : List Char) :
    ∀ c ∈ chunkBySize cfg content fp pp lang,
      1 ≤ c.startLine ∧ c.startLine ≤ c.endLine := by
  intro c hc
  simp only [chunkBySize] at hc
  split at hc
  · rcases List.mem_singleton.mp hc with rfl
    refine ⟨le_refl 1, ?_⟩
    simpa using List.length_pos.mpr (goSplit_ne_nil '\n' content)
  · exact chunkBySizeLoop_lines cfg fp pp lang _ _ _ _ (le_refl 1) c hc

theorem findIdx_le_findIdx_of_imp {α : Type} {p q : α → Bool} (l : List α)
    (h : ∀ x, q x = true → p x = true) : l.findIdx p ≤ l.findIdx q := by
  induction l with
  | nil => simp
  | cons a l ih =>
    rw [List.findIdx_cons, List.findIdx_cons]
    by_cases hq : q a = true
    · simp [hq, h a hq]
    · by_cases hp : p a = true
      · simp [hp]
      · simp only [hp, hq, cond_false]
        omega

theorem lineIdx_mono (positions : List Nat) {a b : Nat} (hab : a ≤ b) :
    lineIdx positions a ≤ lineIdx positions b := by
  have h := findIdx_le_findIdx_of_imp (p := fun q => decide (a < q))
    (q := fun q => decide (b < q)) positions
    (fun x hx => by
      simp only [decide_eq_true_eq] at hx ⊢
      omega)
  simp only [lineIdx]
  omega

theorem findMatchesAux_start_le (pat : List GoReElem) :
    ∀ (fuel : Nat) (s : List Char) (pos : Nat),
      ∀ m ∈ findMatchesAux pat fuel s pos, m.start ≤ pos + s.length := by
  intro fuel
  induction fuel with
  | zero => intro s pos m hm; simp [findMatchesAux] at hm
  | succ fuel ih =>
    intro s pos m hm
    cases s with
    | nil => simp [findMatchesAux] at hm
    | cons c s' =>
      rw [findMatchesAux] at hm
      cases hms : mseq 32 pat (c :: s') none none with
      | none =>
        rw [hms] at hm
        have := ih s' (pos + 1) m hm
        simpa [Nat.add_assoc, Nat.add_comm 1 s'.length] using this
      | some r =>
        rw [hms] at hm
        rcases List.mem_cons.mp hm with rfl | hm'
        · simp
        · obtain ⟨rest, name, sig⟩ := r
          have hb := ih _ _ m hm'
          have hlen : (c :: s').length - rest.length ≤ (c :: s').length :=
            Nat.sub_le _ _
          have hc1 : max ((c :: s').length - rest.length) 1 ≤ (c :: s').length := by
            have : 1 ≤ (c :: s').length := by simp
            omega
          rw [List.length_drop] at hb
          omega

theorem buildGoChunks_lines (content fp pp : List Char) (positions : List Nat) :
    ∀ ms : List (GoMatch × Bool), List.Sorted matchLE ms →
      (∀ m ∈ ms, m.1.start ≤ content.length) →
      ∀ c ∈ buildGoChunks content fp pp positions ms,
        1 ≤ c.startLine ∧ c.startLine ≤ c.endLine := by
  intro ms
  induction ms with
  | nil => intro _ _ c hc; simp [buildGoChunks] at hc
  | cons mb rest ih =>
    intro hsort hle c hc
    obtain ⟨m, isM⟩ := mb
    cases rest with
    | nil =>
      simp only [buildGoChunks] at hc
      rcases List.mem_cons.mp hc with rfl | hc'
      · refine ⟨by simp only; omega, ?_⟩
        simp only
        have := lineIdx_mono positions
          (by simpa using hle (m, isM) (List.mem_cons_self _ _))
        omega
      · simp [buildGoChunks] at hc'
    | cons mb' rest' =>
      obtain ⟨m', isM'⟩ := mb'
      simp only [buildGoChunks] at hc
      rcases List.mem_cons.mp hc with rfl | hc'
      · refine ⟨by simp only; omega, ?_⟩
        simp only
        have hm'le : m.start ≤ m'.start := by
          simpa [matchLE] using
            (List.sorted_cons.mp hsort).1 (m', isM') (List.mem_cons_self _ _)
        have := lineIdx_mono positions hm'le
        omega
      · exact ih (List.sorted_cons.mp hsort).2
          (fun x hx => hle x (List.mem_cons_of_mem _ hx)) c hc'

theorem chunkGoCode_lines (content fp pp : List Char) :
    ∀ c ∈ chunkGoCode content fp pp, 1 ≤ c.startLine ∧ c.startLine ≤ c.endLine := by
  intro c hc
  simp only [chunkGoCode] at hc
  refine buildGoChunks_lines content fp pp (linePositions content) _
    (List.sorted_insertionSort matchLE _) ?_ c hc
  intro mb hmb
  have hmb' := (List.Perm.mem_iff (List.perm_insertionSort matchLE _)).mp hmb
  rcases List.mem_append.mp hmb' with hmb'' | hmb''
  · obtain ⟨m, hm, rfl⟩ := List.mem_map.mp hmb''
    simpa using findMatchesAux_start_le funcPattern _ content 0 m hm
  · obtain ⟨m, hm, rfl⟩ := List.mem_map.mp hmb''
    simpa using findMatchesAux_start_le methodPattern _ content 0 m hm

/-- C9: every chunk produced by `chunkFile` — by the Go structural chunker
or by the size-based chunker, for every input and configuration —
satisfies `1 ≤ start_line ≤ end_line`. -/
theorem c9_line_invariant (cfg : RagConfig) (content fp pp lang : List Char) :
    ∀ c ∈ chunkFile cfg content fp pp lang,
      1 ≤ c.startLine ∧ c.startLine ≤ c.endLine := by
  intro c hc
  simp only [chunkFile] at hc
  obtain ⟨c₀, hc₀, rfl⟩ := List.mem_map.mp hc
  show 1 ≤ c₀.startLine ∧ c₀.startLine ≤ c₀.endLine
  split at hc₀
  · split at hc₀
    · exact chunkBySize_lines cfg content fp pp lang c₀ hc₀
    · exact chunkGoCode_lines content fp pp c₀ hc₀
  · have hc₀' : c₀ ∈ chunkBySize cfg content fp pp lang := by simpa using hc₀
    exact chunkBySize_lines cfg content fp pp lang c₀ hc₀'

set_option maxRecDepth 40000 in
theorem c9_witness :
    1 ≤ ((chunkFile defaultConfig (strL "print(1)") (strL "/r/a.py") (strL "/r")
        (strL "Python")).headD {}).startLine ∧
      ((chunkFile defaultConfig (strL "print(1)") (strL "/r/a.py") (strL "/r")
          (strL "Python")).headD {}).startLine ≤
        ((chunkFile defaultConfig (strL "print(1)") (strL "/r/a.py") (strL "/r")
            (strL "Python")).headD {}).endLine :=
  c9_line_invariant defaultConfig (strL "print(1)") (strL "/r/a.py") (strL "/r")
    (strL "Python") _ (by decide)

/-! ### C8: chunk coverage of the whole file -/

theorem chunkBySizeLoop_covers (cfg : RagConfig) (fp pp lang : List Char) :
    ∀ (rest cur : List (List Char)) (curSize startLine : Nat),
      rest ≠ [] → 1 ≤ startLine →
      ∀ ln, startLine ≤ ln → ln + 1 ≤ startLine + cur.length + rest.length →
      ∃ c ∈ chunkBySizeLoop cfg fp pp lang cur curSize startLine rest,
        c.startLine ≤ ln ∧ ln ≤ c.endLine := by
  intro rest
  induction rest with
  | nil => intro cur curSize startLine hne; exact absurd rfl hne
  | cons line rest' ih =>
    intro cur curSize startLine _ hs ln hla hlb
    simp only [chunkBySizeLoop]
    by_cases hemit : cfg.maxChunkSize ≤ curSize + (line.length + 1) ∨ rest' = []
    · rw [if_pos hemit]
      have hlen : (cur ++ [line]).length = cur.length + 1 := by simp
      by_cases hln : ln ≤ startLine + (cur ++ [line]).length - 1
      · exact ⟨_, List.mem_cons_self _ _, hla, hln⟩
      · have hrest' : rest' ≠ [] := by
          intro he
          subst he
          simp only [List.length_cons, List.length_nil] at hlb
          omega
        have hov : min cfg.chunkOverlap (cur ++ [line]).length ≤
            (cur ++ [line]).length := Nat.min_le_right _ _
        have hcur'' : ((cur ++ [line]).drop
            ((cur ++ [line]).length - min cfg.chunkOverlap (cur ++ [line]).length)).length =
            min cfg.chunkOverlap (cur ++ [line]).length := by
          rw [List.length_drop]
          omega
        obtain ⟨c, hcm, hcov⟩ :=
          ih ((cur ++ [line]).drop
              ((cur ++ [line]).length - min cfg.chunkOverlap (cur ++ [line]).length))
            (((cur ++ [line]).drop
                ((cur ++ [line]).length -
                  min cfg.chunkOverlap (cur ++ [line]).length)).foldl
              (fun acc l => acc + (l.length + 1)) 0)
            (startLine + (cur ++ [line]).length - 1 -
              min cfg.chunkOverlap (cur ++ [line]).length + 1)
            hrest' (by omega) ln (by omega)
            (by
              rw [hcur'']
              simp only [List.length_cons] at hlb
              omega)
        exact ⟨c, List.mem_cons_of_mem _ hcm, hcov⟩
    · rw [if_neg hemit]
      have hrest' : rest' ≠ [] := fun he => hemit (Or.inr he)
      apply ih _ _ _ hrest' hs ln hla
      simp only [List.length_append, List.length_cons] at hlb ⊢
      omega

theorem chunkBySize_covers (cfg : RagConfig) (content fp pp lang : List Char) :
    ∀ ln, 1 ≤ ln → ln ≤ (goSplit '\n' content).length →
    ∃ c ∈ chunkBySize cfg content fp pp lang,
      c.startLine ≤ ln ∧ ln ≤ c.endLine := by
  intro ln h1 h2
  simp only [chunkBySize]
  split
  · exact ⟨_, List.mem_singleton_self _, h1, h2⟩
  · exact chunkBySizeLoop_covers cfg fp pp lang (goSplit '\n' content) [] 0 1
      (goSplit_ne_nil '\n' content) (le_refl 1) ln h1
      (by simp only [List.length_nil]; omega)

/-- The C8 counterexample file: a Go file whose two functions are preceded
by a package clause, so the structural chunks start at line 3. -/
def c8content : List Char :=
  strL "package main\n\nfunc A() \x7b\n\x7d\n\nfunc B(x int) int \x7b\n\treturn 1\n\x7d\n"

set_option maxRecDepth 40000 in
/-- C8, counterexample: for a Go file whose structural pass finds two
functions, line 1 (the package clause) lies in no returned chunk, so the
chunks do not collectively cover the whole file. -/
theorem c8_counterexample :
    1 ≤ (goSplit '\n' c8content).length ∧
    ¬ ∃ c ∈ chunkFile defaultConfig c8content (strL "/r/b.go") (strL "/r")
        (strL "Go"), c.startLine ≤ 1 ∧ 1 ≤ c.endLine := by
  decide

/-- C8, amended: the chunks cover every line of the file whenever the
size-based chunker runs — that is, for every non-Go language, and for Go
files whose structural pass found fewer than two matches. On the Go
structural path, text before the first match is in no chunk. -/
theorem c8_amended (cfg : RagConfig) (content fp pp lang : List Char)
    (hfb : lang ≠ strL "Go" ∨ (chunkGoCode content fp pp).length < 2) :
    ∀ ln, 1 ≤ ln → ln ≤ (goSplit '\n' content).length →
    ∃ c ∈ chunkFile cfg content fp pp lang,
      c.startLine ≤ ln ∧ ln ≤ c.endLine := by
  intro ln h1 h2
  obtain ⟨c, hc, hcov⟩ := chunkBySize_covers cfg content fp pp lang ln h1 h2
  simp only [chunkFile]
  have hsel : (if (if lang = strL "Go" then chunkGoCode content fp pp else []).length < 2
      then chunkBySize cfg content fp pp lang
      else if lang = strL "Go" then chunkGoCode content fp pp else []) =
      chunkBySize cfg content fp pp lang := by
    rcases hfb with h | h
    · rw [if_neg h]
      simp
    · by_cases hg : lang = strL "Go"
      · rw [if_pos hg, if_pos (by simpa [hg] using h)]
      · rw [if_neg hg]
        simp
  rw [hsel]
  exact ⟨_, List.mem_map_of_mem _ hc, hcov⟩

set_option maxRecDepth 40000 in
theorem c8_witness :
    ∃ c ∈ chunkFile defaultConfig (strL "a\nb") (strL "/r/t.py") (strL "/r")
        (strL "Python"), c.startLine ≤ 2 ∧ 2 ≤ c.endLine :=
  c8_amended defaultConfig (strL "a\nb") (strL "/r/t.py") (strL "/r")
    (strL "Python") (Or.inl (by decide)) 2 (by decide) (by decide)

/-! ### C2: byte-exact reconstruction from size-based chunks

The reconstruction operation is the one the spec describes: keep the first
chunk whole and, from every later chunk, remove the region it duplicates
from its predecessor — the bytes of its leading lines up to and including
the predecessor's `end_line` (the carried-over overlap lines); then
concatenate. -/

/-- Remove from `c.content` the bytes of its first
`prevEnd + 1 - c.startLine` lines (the region duplicated from the
predecessor chunk that ended at line `prevEnd`). -/
def dropDup (prevEnd : Nat) (c : CodeChunk) : List Char :=
  let d := prevEnd + 1 - c.startLine
  let dup := joinNL ((goSplit '\n' c.content).take d)
  c.content.drop dup.length

/-- Concatenate the overlap-stripped contents of the chunks after the
first; `prevEnd` is the previous chunk's `end_line`. -/
def reconTail (prevEnd : Nat) : List CodeChunk → List Char
  | [] => []
  | c :: cs => dropDup prevEnd c ++ reconTail c.endLine cs

/-- The spec's reconstruction: first chunk whole, later chunks minus their
duplicated overlap region. -/
def reconstruct : List CodeChunk → List Char
  | [] => []
  | c :: cs => c.content ++ reconTail c.endLine cs

theorem chunkBySizeLoop_recon (cfg : RagConfig) (fp pp lang : List Char)
    (hovpos : 1 ≤ cfg.chunkOverlap) :
    ∀ (rest cur : List (List Char)) (curSize startLine : Nat),
      rest ≠ [] → 1 ≤ startLine →
      (∀ l ∈ cur, '\n' ∉ l) → (∀ l ∈ rest, '\n' ∉ l) →
      ∃ c cs, chunkBySizeLoop cfg fp pp lang cur curSize startLine rest = c :: cs ∧
        c.startLine = startLine ∧
        (∃ t, t ≠ [] ∧ goSplit '\n' c.content = cur ++ t) ∧
        c.content ++ reconTail c.endLine cs = joinNL (cur ++ rest) := by
  intro rest
  induction rest with
  | nil => intro cur curSize startLine hne; exact absurd rfl hne
  | cons line rest' ih =>
    intro cur curSize startLine _ hs hcur hrest
    have hline : '\n' ∉ line := hrest line (List.mem_cons_self _ _)
    have hrest' : ∀ l ∈ rest', '\n' ∉ l :=
      fun l hl => hrest l (List.mem_cons_of_mem _ hl)
    have hcur' : ∀ l ∈ cur ++ [line], '\n' ∉ l := by
      intro l hl
      rcases List.mem_append.mp hl with h | h
      · exact hcur l h
      · rcases List.mem_singleton.mp h with rfl
        exact hline
    have hlen1 : (cur ++ [line]).length = cur.length + 1 := by simp
    simp only [chunkBySizeLoop]
    by_cases hemit : cfg.maxChunkSize ≤ curSize + (line.length + 1) ∨ rest' = []
    · rw [if_pos hemit]
      by_cases hre : rest' = []
      · subst hre
        refine ⟨_, _, rfl, rfl, ⟨[line], by simp, ?_⟩, ?_⟩
        · rw [show joinNL (cur ++ [line]) = joinSep '\n' (cur ++ [line]) from rfl,
            goSplit_joinSep hcur' (by simp)]
        · simp only [chunkBySizeLoop, reconTail, List.append_nil]
      · -- the recursion continues on a non-empty tail
        have hov : min cfg.chunkOverlap (cur ++ [line]).length ≤
            (cur ++ [line]).length := Nat.min_le_right _ _
        have hovp : 1 ≤ min cfg.chunkOverlap (cur ++ [line]).length := by
          have : 1 ≤ (cur ++ [line]).length := by simp
          omega
        have hnclen : ((cur ++ [line]).drop
            ((cur ++ [line]).length - min cfg.chunkOverlap (cur ++ [line]).length)).length =
            min cfg.chunkOverlap (cur ++ [line]).length := by
          rw [List.length_drop]
          omega
        obtain ⟨c2, cs2, hloop, hstart2, ⟨t, htne, hsplit2⟩, hrecon2⟩ :=
          ih ((cur ++ [line]).drop
              ((cur ++ [line]).length - min cfg.chunkOverlap (cur ++ [line]).length))
            (((cur ++ [line]).drop
                ((cur ++ [line]).length -
                  min cfg.chunkOverlap (cur ++ [line]).length)).foldl
              (fun acc l => acc + (l.length + 1)) 0)
            (startLine + (cur ++ [line]).length - 1 -
              min cfg.chunkOverlap (cur ++ [line]).length + 1)
            hre (by omega)
            (fun l hl => hcur' l (List.mem_of_mem_drop hl)) hrest'
        refine ⟨_, c2 :: cs2, by rw [hloop], rfl, ⟨[line], by simp, ?_⟩, ?_⟩
        · rw [show joinNL (cur ++ [line]) = joinSep '\n' (cur ++ [line]) from rfl,
            goSplit_joinSep hcur' (by simp)]
        · -- the reconstruction equation
          have hncne : (cur ++ [line]).drop
              ((cur ++ [line]).length - min cfg.chunkOverlap (cur ++ [line]).length) ≠
              [] := by
            intro he
            have := congrArg List.length he
            rw [hnclen] at this
            simp at this
            omega
          have hd : startLine + (cur ++ [line]).length - 1 + 1 - c2.startLine =
              min cfg.chunkOverlap (cur ++ [line]).length := by
            rw [hstart2]
            omega
          have hcontent2 : c2.content =
              joinSep '\n'
                ((cur ++ [line]).drop
                  ((cur ++ [line]).length -
                    min cfg.chunkOverlap (cur ++ [line]).length) ++ t) := by
            have h0 := joinSep_goSplit '\n' c2.content
            rw [hsplit2] at h0
            exact h0.symm
          have hjoin2 : joinSep '\n'
              ((cur ++ [line]).drop
                ((cur ++ [line]).length -
                  min cfg.chunkOverlap (cur ++ [line]).length) ++ t) =
              joinSep '\n'
                ((cur ++ [line]).drop
                  ((cur ++ [line]).length -
                    min cfg.chunkOverlap (cur ++ [line]).length)) ++
                '\n' :: joinSep '\n' t := joinSep_append hncne htne
          have hdrop : dropDup (startLine + (cur ++ [line]).length - 1) c2 =
              '\n' :: joinSep '\n' t := by
            simp only [dropDup, hd, hsplit2]
            rw [show ((cur ++ [line]).drop
                ((cur ++ [line]).length -
                  min cfg.chunkOverlap (cur ++ [line]).length) ++ t).take
                  (min cfg.chunkOverlap (cur ++ [line]).length) =
                (cur ++ [line]).drop
                  ((cur ++ [line]).length -
                    min cfg.chunkOverlap (cur ++ [line]).length) from
              List.take_left' hnclen]
            rw [show joinNL ((cur ++ [line]).drop
                ((cur ++ [line]).length -
                  min cfg.chunkOverlap (cur ++ [line]).length)) =
              joinSep '\n' ((cur ++ [line]).drop
                ((cur ++ [line]).length -
                  min cfg.chunkOverlap (cur ++ [line]).length)) from rfl]
            rw [hcontent2, hjoin2]
            exact List.drop_left _ _
          have hjrest : joinSep '\n'
              ((cur ++ [line]).drop
                ((cur ++ [line]).length -
                  min cfg.chunkOverlap (cur ++ [line]).length) ++ rest') =
              joinSep '\n'
                ((cur ++ [line]).drop
                  ((cur ++ [line]).length -
                    min cfg.chunkOverlap (cur ++ [line]).length)) ++
                '\n' :: joinSep '\n' rest' := joinSep_append hncne hre
          have hcancel : joinSep '\n' t ++ reconTail c2.endLine cs2 =
              joinSep '\n' rest' := by
            have h0 := hrecon2
            rw [show joinNL ((cur ++ [line]).drop
                ((cur ++ [line]).length -
                  min cfg.chunkOverlap (cur ++ [line]).length) ++ rest') =
              joinSep '\n' ((cur ++ [line]).drop
                ((cur ++ [line]).length -
                  min cfg.chunkOverlap (cur ++ [line]).length) ++ rest') from rfl,
              hjrest, hcontent2, hjoin2, List.append_assoc, List.cons_append] at h0
            have h1 := List.append_cancel_left h0
            injection h1 with _ h2
          show joinNL (cur ++ [line]) ++
              reconTail (startLine + (cur ++ [line]).length - 1) (c2 :: cs2) =
              joinNL (cur ++ line :: rest')
          rw [reconTail, hdrop,
            show joinNL (cur ++ [line]) = joinSep '\n' (cur ++ [line]) from rfl,
            show joinNL (cur ++ line :: rest') = joinSep '\n' (cur ++ line :: rest')
              from rfl,
            show cur ++ line :: rest' = (cur ++ [line]) ++ rest' from by simp,
            joinSep_append (by simp) hre, List.cons_append, hcancel]
    · rw [if_neg hemit]
      have hre' : rest' ≠ [] := fun he => hemit (Or.inr he)
      obtain ⟨c, cs, heq, hstart, ⟨t, htne, hsplit⟩, hrecon⟩ :=
        ih (cur ++ [line]) (curSize + (line.length + 1)) startLine hre' hs hcur' hrest'
      refine ⟨c, cs, heq, hstart, ⟨[line] ++ t, by simp, ?_⟩, ?_⟩
      · rw [hsplit]
        exact List.append_assoc cur [line] t
      · rw [hrecon]
        exact congrArg joinNL (by simp)

/-- C2: for positive `MaxChunkSize` and `ChunkOverlap`, concatenating the
chunks of the size-based chunker after removing each later chunk's
duplicated overlap region reconstructs the file byte-for-byte. -/
theorem c2_reconstruction (cfg : RagConfig) (content fp pp lang : List Char)
    (hmax : 1 ≤ cfg.maxChunkSize) (hov : 1 ≤ cfg.chunkOverlap) :
    reconstruct (chunkBySize cfg content fp pp lang) = content := by
  simp only [chunkBySize]
  split
  · simp [reconstruct, reconTail]
  · obtain ⟨c, cs, heq, _, _, hrecon⟩ :=
      chunkBySizeLoop_recon cfg fp pp lang hov (goSplit '\n' content) [] 0 1
        (goSplit_ne_nil '\n' content) (le_refl 1) (by simp)
        (fun l hl => not_mem_of_mem_goSplit hl)
    rw [heq]
    show c.content ++ reconTail c.endLine cs = content
    rw [hrecon]
    simp only [List.nil_append]
    exact joinSep_goSplit '\n' content

set_option maxRecDepth 40000 in
theorem c2_witness :
    reconstruct (chunkBySize { maxChunkSize := 5, chunkOverlap := 1 }
        (strL "aa\nbb\ncc\ndd") (strL "/r/f.txt") (strL "/r") (strL "Text")) =
      strL "aa\nbb\ncc\ndd" :=
  c2_reconstruction { maxChunkSize := 5, chunkOverlap := 1 }
    (strL "aa\nbb\ncc\ndd") (strL "/r/f.txt") (strL "/r") (strL "Text")
    (by decide) (by decide)

/-! ### C4: the glob-to-regex round trip -/

set_option maxRecDepth 10000 in
/-- C4, counterexample: the regex produced for `foo*.go` ACCEPTS
`foo/bar.go` (the rewritten `.*` matches `/`), and the regex produced for
`*api*` fails on a path that contains `api` after a newline (`.` does not
match a newline) — so the claim's "rejects `foo/bar.go`" and "matches any
path containing `api`" are both false. -/
theorem c4_counterexample :
    regexAccepts (globToRegex (strL "foo*.go")) (strL "foo/bar.go") = true ∧
    regexAccepts (globToRegex (strL "*api*")) (strL "x\napi") = false := by
  constructor
  · decide
  · decide

theorem reMatchF_sound : ∀ (fuel : Nat) (es : List RElem) (s : List Char),
    reMatchF fuel es s = true → RMatch es s := by
  intro fuel
  induction fuel with
  | zero => intro es s h; simp [reMatchF] at h
  | succ fuel ih =>
    intro es s h
    cases es with
    | nil =>
      cases s with
      | nil => exact RMatch.nil
      | cons c s' => simp [reMatchF] at h
    | cons e es' =>
      obtain ⟨a, st⟩ := e
      cases st with
      | false =>
        cases s with
        | nil => simp [reMatchF] at h
        | cons c s' =>
          simp only [reMatchF, Bool.and_eq_true] at h
          exact RMatch.one h.1 (ih es' s' h.2)
      | true =>
        simp only [reMatchF, Bool.or_eq_true] at h
        rcases h with h' | h'
        · exact RMatch.starSkip (ih es' s h')
        · cases s with
          | nil => simp at h'
          | cons c s' =>
            simp only [Bool.and_eq_true] at h'
            exact RMatch.starCons h'.1 (ih _ s' h'.2)

theorem RMatch.toRun {es : List RElem} {s : List Char} (h : RMatch es s) :
    ∀ fuel, es.length + s.length < fuel → reMatchF fuel es s = true := by
  induction h with
  | nil =>
    intro fuel hf
    cases fuel with
    | zero => omega
    | succ fuel => simp [reMatchF]
  | one h1 _ ih =>
    intro fuel hf
    cases fuel with
    | zero => omega
    | succ fuel =>
      simp only [reMatchF, h1, Bool.true_and]
      apply ih
      simp only [List.length_cons] at hf
      omega
  | starSkip _ ih =>
    intro fuel hf
    cases fuel with
    | zero => omega
    | succ fuel =>
      simp only [reMatchF, Bool.or_eq_true]
      left
      apply ih
      simp only [List.length_cons] at hf
      omega
  | starCons h1 _ ih =>
    intro fuel hf
    cases fuel with
    | zero => omega
    | succ fuel =>
      simp only [reMatchF, Bool.or_eq_true]
      right
      simp only [h1, Bool.true_and]
      apply ih
      simp only [List.length_cons] at hf ⊢
      omega

theorem reMatch_iff (es : List RElem) (s : List Char) :
    reMatch es s = true ↔ RMatch es s :=
  ⟨reMatchF_sound _ es s, fun h => h.toRun _ (by omega)⟩

theorem rmatch_nil_iff (s : List Char) : RMatch [] s ↔ s = [] := by
  constructor
  · intro h
    cases h
    rfl
  · rintro rfl
    exact RMatch.nil

theorem rmatch_stardot_head (es : List RElem) :
    ∀ s : List Char, RMatch (⟨RAtom.rdot, true⟩ :: es) s ↔
      ∃ a b, s = a ++ b ∧ (∀ ch ∈ a, ch ≠ '\n') ∧ RMatch es b := by
  intro s
  induction s with
  | nil =>
    constructor
    · intro h
      cases h with
      | starSkip h' => exact ⟨[], [], rfl, by simp, h'⟩
    · rintro ⟨a, b, hab, _, hm⟩
      obtain ⟨rfl, rfl⟩ := List.append_eq_nil.mp hab.symm
      exact RMatch.starSkip hm
  | cons c s' ih =>
    constructor
    · intro h
      cases h with
      | starSkip h' => exact ⟨[], c :: s', rfl, by simp, h'⟩
      | starCons h1 h2 =>
        obtain ⟨a, b, hab, hnl, hm⟩ := ih.mp h2
        refine ⟨c :: a, b, by rw [hab]; rfl, ?_, hm⟩
        intro ch hch
        rcases List.mem_cons.mp hch with rfl | hch'
        · simpa [atomB] using h1
        · exact hnl ch hch'
    · rintro ⟨a, b, hab, hnl, hm⟩
      cases a with
      | nil =>
        simp only [List.nil_append] at hab
        rw [hab]
        exact RMatch.starSkip hm
      | cons a0 a' =>
        simp only [List.cons_append, List.cons.injEq] at hab
        obtain ⟨h0, hs'⟩ := hab
        subst h0
        refine RMatch.starCons ?_ (ih.mpr ⟨a', b, hs', ?_, hm⟩)
        · simpa [atomB] using hnl c (List.mem_cons_self _ _)
        · exact fun ch hch => hnl ch (List.mem_cons_of_mem _ hch)

theorem rmatch_stardot_only (s : List Char) :
    RMatch [⟨RAtom.rdot, true⟩] s ↔ ∀ ch ∈ s, ch ≠ '\n' := by
  rw [rmatch_stardot_head []]
  constructor
  · rintro ⟨a, b, rfl, hnl, hm⟩
    rw [(rmatch_nil_iff b).mp hm]
    simpa using hnl
  · intro hnl
    exact ⟨s, [], by simp, hnl, RMatch.nil⟩

/-- The literal elements of a parsed regex (one unstarred `rlit` per
character). -/
def litsRE (w : List Char) : List RElem := w.map fun ch => ⟨RAtom.rlit ch, false⟩

theorem rmatch_lits (w : List Char) (es : List RElem) :
    ∀ s, RMatch (litsRE w ++ es) s ↔ ∃ b, s = w ++ b ∧ RMatch es b := by
  induction w with
  | nil =>
    intro s
    simp only [litsRE, List.map_nil, List.nil_append]
    exact ⟨fun h => ⟨s, rfl, h⟩, fun ⟨b, hb, hm⟩ => hb ▸ hm⟩
  | cons ch w' ih =>
    intro s
    constructor
    · intro h
      cases h with
      | one h1 h2 =>
        rename_i c s'
        obtain ⟨b, hb, hm⟩ := (ih s').mp h2
        have hc : c = ch := by simpa [atomB] using h1
        exact ⟨b, by rw [hc, hb]; rfl, hm⟩
    · rintro ⟨b, rfl, hm⟩
      exact RMatch.one (by simp [atomB]) ((ih _).mpr ⟨b, rfl, hm⟩)

/-- C4, amended: the regex produced for `foo*.go` accepts `foobar.go` and
also accepts `foo/bar.go` (`.*` matches the path separator); the regex
produced for `*api*` matches exactly the newline-free paths containing the
substring `api` (the rewritten `.` does not match a newline). -/
theorem c4_amended :
    regexAccepts (globToRegex (strL "foo*.go")) (strL "foobar.go") = true ∧
    regexAccepts (globToRegex (strL "foo*.go")) (strL "foo/bar.go") = true ∧
    ∀ s : List Char,
      regexAccepts (globToRegex (strL "*api*")) s = true ↔
        ((∃ a b, s = a ++ strL "api" ++ b) ∧ ∀ ch ∈ s, ch ≠ '\n') := by
  refine ⟨by decide, by decide, fun s => ?_⟩
  have hpat : regexAccepts (globToRegex (strL "*api*")) s =
      reMatch (⟨RAtom.rdot, true⟩ :: (litsRE (strL "api") ++ [⟨RAtom.rdot, true⟩]))
        s := rfl
  rw [hpat, reMatch_iff, rmatch_stardot_head, ]
  constructor
  · rintro ⟨a, b, rfl, hnla, hm⟩
    obtain ⟨b2, rfl, hm2⟩ := (rmatch_lits (strL "api") [⟨RAtom.rdot, true⟩] b).mp hm
    have hnlb2 : ∀ ch ∈ b2, ch ≠ '\n' := (rmatch_stardot_only b2).mp hm2
    refine ⟨⟨a, b2, by simp⟩, ?_⟩
    intro ch hch
    rcases List.mem_append.mp hch with h | h
    · exact hnla ch h
    · rcases List.mem_append.mp h with h' | h'
      · intro he
        subst he
        revert h'
        decide
      · exact hnlb2 ch h'
  · rintro ⟨⟨a, b, rfl⟩, hnl⟩
    refine ⟨a, strL "api" ++ b, by simp, ?_, ?_⟩
    · intro ch hch
      exact hnl ch (by simp [hch])
    · refine (rmatch_lits (strL "api") [⟨RAtom.rdot, true⟩] _).mpr
        ⟨b, rfl, (rmatch_stardot_only b).mpr ?_⟩
      intro ch hch
      exact hnl ch (by simp [hch])

theorem c4_witness :
    regexAccepts (globToRegex (strL "*api*")) (strL "x/api.go") = true :=
  (c4_amended.2.2 (strL "x/api.go")).mpr
    ⟨⟨strL "x/", strL ".go", by decide⟩, by decide⟩

end LocalRag
